import Mathlib

/-!
Verification of the Discount-App scraping core (`discount_app.py`).

The Python source is shallowly embedded: prices (Python floats holding
scraped decimals) are modelled as exact rationals, Python `dict`/`set`
state is passed explicitly, the DOM query layer is abstracted into
per-item records carrying the text each CSS selector would return, and
exceptions are modelled with `Except`.
-/

set_option maxHeartbeats 1000000

namespace DiscountApp

/-- Python `str.strip()`: drop leading and trailing whitespace. -/
def pyStrip (s : String) : String :=
  ⟨((s.data.dropWhile Char.isWhitespace).reverse.dropWhile Char.isWhitespace).reverse⟩

/-- Python `str.lower()` (ASCII, which is all the source compares). -/
def pyLower (s : String) : String :=
  ⟨s.data.map Char.toLower⟩

/-- Helper for `pyIn`: does `needle` occur in the haystack list? -/
def pyInAux (needle : List Char) : List Char → Bool
  | [] => needle.isEmpty
  | c :: rest => needle.isPrefixOf (c :: rest) || pyInAux needle rest

/-- Python substring test `needle in hay`. -/
def pyIn (needle hay : String) : Bool :=
  pyInAux needle.data hay.data

/-- Python `str.startswith`. -/
def pyStartsWith (s pre : String) : Bool :=
  pre.data.isPrefixOf s.data

/-- The `ProductCategory` enum of the source. -/
inductive ProductCategory where
  | CPU
  | GPU
  | RAM
  | MOTHERBOARD
  | SSD
  | HDD
  | PSU
  | CASE
  | CONSOLE
  | TELEVISION
  | MONITOR
deriving DecidableEq

/-- The `.value` string of each `ProductCategory` member. -/
def ProductCategory.value : ProductCategory → String
  | .CPU => "CPU"
  | .GPU => "GPU"
  | .RAM => "RAM"
  | .MOTHERBOARD => "Motherboard"
  | .SSD => "SSD"
  | .HDD => "HDD"
  | .PSU => "Power Supply"
  | .CASE => "PC Case"
  | .CONSOLE => "Console"
  | .TELEVISION => "Television"
  | .MONITOR => "Monitor"

/-- The `CATEGORY_SEARCH_TERMS` table (total on the enum, so the
`dict.get` default is never consulted). -/
def CATEGORY_SEARCH_TERMS : ProductCategory → String
  | .CPU => "cpu processor"
  | .GPU => "graphics card"
  | .RAM => "ddr5 ram"
  | .MOTHERBOARD => "motherboard"
  | .SSD => "nvme ssd"
  | .HDD => "hard drive"
  | .PSU => "power supply"
  | .CASE => "pc case"
  | .CONSOLE => "game console"
  | .TELEVISION => "4k tv"
  | .MONITOR => "gaming monitor"

/-- Python `round` to an integer (round half to even) on rationals. -/
def pyRoundInt (q : ℚ) : ℤ :=
  let f : ℤ := Int.fdiv q.num (q.den : ℤ)
  let r : ℚ := q - (f : ℚ)
  if r < 1 / 2 then f
  else if 1 / 2 < r then f + 1
  else if f % 2 = 0 then f else f + 1

/-- Python `round(x, 2)` on rationals. -/
def pyRound2 (q : ℚ) : ℚ := (pyRoundInt (q * 100) : ℚ) / 100

/-- The `Deal` record; `discount_percentage` is stored at construction
time, matching `Deal.__init__`. -/
structure Deal where
  product_name : String
  category : ProductCategory
  original_price : ℚ
  sale_price : ℚ
  retailer : String
  url : String
  description : String
  discount_percentage : ℚ
deriving DecidableEq

/-- `Deal._calculate_discount` from the source. -/
def calculate_discount (original_price sale_price : ℚ) : ℚ :=
  if original_price ≤ 0 then 0
  else pyRound2 ((original_price - sale_price) / original_price * 100)

/-- `Deal.__init__`: builds the record and computes `discount_percentage`. -/
def mkDeal (product_name : String) (category : ProductCategory)
    (original_price sale_price : ℚ) (retailer url description : String) : Deal :=
  { product_name := product_name
    category := category
    original_price := original_price
    sale_price := sale_price
    retailer := retailer
    url := url
    description := description
    discount_percentage := calculate_discount original_price sale_price }

/-- Digits-to-number accumulator used to model Python `float(...)` on a
matched numeric string. -/
def natOfDigits (l : List Char) : ℕ :=
  l.foldl (fun n c => 10 * n + (c.toNat - 48)) 0

/-- Greedy consumption of the `(?:,[0-9]{3})*` part of the price regex:
returns the consumed characters and the remainder. -/
def takeCommaGroups : List Char → List Char × List Char
  | ',' :: a :: b :: c :: rest =>
    if a.isDigit && b.isDigit && c.isDigit then
      let p := takeCommaGroups rest
      (',' :: a :: b :: c :: p.1, p.2)
    else ([], ',' :: a :: b :: c :: rest)
  | l => ([], l)

/-- The optional `(?:\.\d{2})?` part of the price regex. -/
def takeFraction : List Char → List Char
  | '.' :: a :: b :: _ => if a.isDigit && b.isDigit then ['.', a, b] else []
  | _ => []

/-- A match of `([0-9]+(?:,[0-9]{3})*(?:\.\d{2})?)` anchored at the head
of `l`, if any. -/
def matchNumberAt (l : List Char) : Option (List Char) :=
  let ds := l.takeWhile Char.isDigit
  if ds.isEmpty then none
  else
    let p := takeCommaGroups (l.dropWhile Char.isDigit)
    some (ds ++ p.1 ++ takeFraction p.2)

/-- `re.search` for the price pattern: the leftmost match. -/
def searchNumber : List Char → Option (List Char)
  | [] => none
  | c :: rest =>
    match matchNumberAt (c :: rest) with
    | some m => some m
    | none => searchNumber rest

/-- Python `float` on the matched, comma-stripped string
(`digits` optionally followed by `.` and digits), as an exact rational. -/
def parseDecimalChars (l : List Char) : ℚ :=
  let ip := l.takeWhile (fun c => c ≠ '.')
  let fp := (l.dropWhile (fun c => c ≠ '.')).drop 1
  mkRat (natOfDigits ip * 10 ^ fp.length + natOfDigits fp) (10 ^ fp.length)

/-- `DealSearcher._parse_price` from the source. -/
def parse_price (text : String) : Option ℚ :=
  if text = "" then none
  else
    match searchNumber text.data with
    | none => none
    | some m => some (parseDecimalChars (m.filter (fun c => c ≠ ',')))

/-- Query construction for one category inside
`DealSearcher._fetch_deals_from_retailers` (lines 197-208). -/
def buildQuery (category : ProductCategory) (search_term : Option String) : String :=
  let normalized :=
    match search_term with
    | some s => pyStrip s
    | none => ""
  let category_term := CATEGORY_SEARCH_TERMS category
  if normalized ≠ "" then
    if pyIn (pyLower category_term) (pyLower normalized) then normalized
    else pyStrip (normalized ++ " " ++ category_term)
  else category_term

/-- The aggregator's dedup identity `(retailer, product_name.lower())`. -/
def dedupKey (d : Deal) : String × String := (d.retailer, pyLower d.product_name)

/-- `DealSearcher._merge_deals`: fold one task's deals into the shared
output list and seen-set (the Python `set` is modelled by the list of
keys added so far). -/
def merge_deals : List Deal → List Deal → List (String × String) → List Deal × List (String × String)
  | [], deals, seen => (deals, seen)
  | d :: rest, deals, seen =>
    if dedupKey d ∈ seen then merge_deals rest deals seen
    else merge_deals rest (deals ++ [d]) (dedupKey d :: seen)

/-- The concurrent draining loop of `_fetch_deals_from_retailers`:
a failed future is logged and skipped, a successful one is merged. -/
def concLoop : List (Except ℕ (List Deal)) → List Deal → List (String × String) → List Deal × List (String × String)
  | [], deals, seen => (deals, seen)
  | Except.error _ :: rest, deals, seen => concLoop rest deals seen
  | Except.ok ds :: rest, deals, seen =>
    let p := merge_deals ds deals seen
    concLoop rest p.1 p.2

/-- The concurrent path of `_fetch_deals_from_retailers`, applied to the
per-task outcomes in arrival order. -/
def fetchConcurrent (results : List (Except ℕ (List Deal))) : List Deal :=
  (concLoop results [] []).1

/-- The sequential fallback loop of `_fetch_deals_from_retailers`:
`_scrape_with_cache` is called with no exception handler, so a raising
task propagates immediately. -/
def seqLoop : List (Except ℕ (List Deal)) → List Deal → List (String × String) → Except ℕ (List Deal)
  | [], deals, _ => Except.ok deals
  | Except.error e :: _, _, _ => Except.error e
  | Except.ok ds :: rest, deals, seen =>
    let p := merge_deals ds deals seen
    seqLoop rest p.1 p.2

/-- The sequential fallback path of `_fetch_deals_from_retailers`. -/
def fetchSequential (results : List (Except ℕ (List Deal))) : Except ℕ (List Deal) :=
  seqLoop results [] []

/-- Merging a sequence of per-task result lists, all successful. -/
def mergeAll (results : List (List Deal)) : List Deal :=
  fetchConcurrent (results.map Except.ok)

/-- The aggregator contract as the spec words it: the first deal
carrying an unseen dedup key is kept, every later deal with the same
key is dropped. -/
def specFirstWins : List Deal → List Deal
  | [] => []
  | d :: rest =>
    d :: (specFirstWins rest).filter (fun d' => decide (dedupKey d' ≠ dedupKey d))

/-- Cache keys `(retailer, query.strip().lower(), category.value)`. -/
abbrev CacheKey := String × String × String

/-- `DealSearcher._cache_key`. -/
def cache_key (retailer query : String) (category : ProductCategory) : CacheKey :=
  (retailer, pyLower (pyStrip query), category.value)

/-- The searcher's `_cache` dict, as an association list keyed uniquely. -/
abbrev CacheMap := List (CacheKey × (ℚ × List Deal))

/-- Dict lookup `self._cache.get(key)`. -/
def cacheLookup (key : CacheKey) : CacheMap → Option (ℚ × List Deal)
  | [] => none
  | p :: rest => if p.1 = key then some p.2 else cacheLookup key rest

/-- Dict removal `self._cache.pop(key, None)`. -/
def cacheErase (key : CacheKey) : CacheMap → CacheMap
  | [] => []
  | p :: rest => if p.1 = key then cacheErase key rest else p :: cacheErase key rest

/-- `DealSearcher._cache_set` executed at time `now`. -/
def cache_set (now : ℚ) (key : CacheKey) (deals : List Deal) (c : CacheMap) : CacheMap :=
  (key, (now, deals)) :: cacheErase key c

/-- `DealSearcher._cache_get` executed at time `now`: the returned hit
and the cache state afterwards (expired entries are popped). -/
def cache_get (now ttl : ℚ) (key : CacheKey) (c : CacheMap) : Option (List Deal) × CacheMap :=
  match cacheLookup key c with
  | none => (none, c)
  | some (ts, deals) =>
    if ttl < now - ts then (none, cacheErase key c) else (some deals, c)

/-- One `li.sku-item` block of a Best Buy result page, holding the text
each selector of `_scrape_bestbuy` would return (`none` = element
absent). The title pair is `(get_text, href)`. -/
structure BBItem where
  title : Option (String × String)
  priceText : Option String
  prevPriceText : Option String
  descText : Option String
deriving DecidableEq

/-- The body of `_scrape_bestbuy`'s per-item loop: the deal appended for
this block, if any. -/
def bbExtractItem (item : BBItem) (category : ProductCategory) : Option Deal :=
  match item.title, item.priceText with
  | some t, some ptext =>
    match parse_price ptext with
    | none => none
    | some sale =>
      let prev :=
        match item.prevPriceText with
        | some s => parse_price s
        | none => none
      let original :=
        match prev with
        | some p => if p ≠ 0 ∧ sale < p then p else sale
        | none => sale
      let url := if pyStartsWith t.2 "/" then "https://www.bestbuy.com" ++ t.2 else t.2
      let desc :=
        match item.descText with
        | some s => s
        | none => ""
      some (mkDeal t.1 category original sale "Best Buy" url desc)
  | _, _ => none

/-- One `div.item-cell` block of a Newegg result page. -/
structure NEItem where
  title : Option (String × String)
  priceText : Option String
  wasText : Option String
deriving DecidableEq

/-- The body of `_scrape_newegg`'s per-item loop. -/
def neExtractItem (item : NEItem) (category : ProductCategory) : Option Deal :=
  match item.title, item.priceText with
  | some t, some ptext =>
    if pyIn "see price in cart" (pyLower ptext) then none
    else
      match parse_price ptext with
      | none => none
      | some sale =>
        let was :=
          match item.wasText with
          | some s => parse_price s
          | none => none
        let original :=
          match was with
          | some p => if p ≠ 0 ∧ sale < p then p else sale
          | none => sale
        some (mkDeal t.1 category original sale "Newegg" t.2 "")
  | _, _ => none

/-- The shared collection loop of both scrapers: append each extracted
deal, and break as soon as `len(deals) >= limit` after an append. -/
def scrapeLoop {α : Type} (extract : α → Option Deal) (limit : ℕ) : List α → List Deal → List Deal
  | [], deals => deals
  | item :: rest, deals =>
    match extract item with
    | none => scrapeLoop extract limit rest deals
    | some d =>
      let deals' := deals ++ [d]
      if limit ≤ deals'.length then deals' else scrapeLoop extract limit rest deals'

/-- `DealSearcher._scrape_bestbuy` applied to the selected item blocks
of a fetched page. -/
def scrape_bestbuy (items : List BBItem) (category : ProductCategory) (limit : ℕ) : List Deal :=
  scrapeLoop (fun i => bbExtractItem i category) limit items []

/-- `DealSearcher._scrape_newegg` applied to the selected item blocks. -/
def scrape_newegg (items : List NEItem) (category : ProductCategory) (limit : ℕ) : List Deal :=
  scrapeLoop (fun i => neExtractItem i category) limit items []

/-- The part of the searcher's state the filter/sort helpers read:
`self.deals`, the most recent search result set. -/
structure SearcherState where
  deals : List Deal
deriving DecidableEq

/-- Stable insertion used to model Python `sorted(..., key=...)`. -/
def insertSorted (le : Deal → Deal → Bool) (d : Deal) : List Deal → List Deal
  | [] => [d]
  | x :: xs => if le d x then d :: x :: xs else x :: insertSorted le d xs

/-- Python `sorted` on a deal list with a boolean comparator. -/
def sortDeals (le : Deal → Deal → Bool) (l : List Deal) : List Deal :=
  l.foldr (insertSorted le) []

/-- `DealSearcher.filter_deals_by_category`: the returned fresh list and
the searcher state afterwards (the body is a pure comprehension). -/
def filter_deals_by_category (s : SearcherState) (category : ProductCategory) : List Deal × SearcherState :=
  (s.deals.filter (fun d => decide (d.category = category)), s)

/-- `DealSearcher.filter_deals_by_min_discount`. -/
def filter_deals_by_min_discount (s : SearcherState) (min_discount : ℚ) : List Deal × SearcherState :=
  (s.deals.filter (fun d => decide (min_discount ≤ d.discount_percentage)), s)

/-- `DealSearcher.filter_deals_by_max_price`. -/
def filter_deals_by_max_price (s : SearcherState) (max_price : ℚ) : List Deal × SearcherState :=
  (s.deals.filter (fun d => decide (d.sale_price ≤ max_price)), s)

/-- `DealSearcher.sort_deals_by_discount` (`sorted` builds a new list). -/
def sort_deals_by_discount (s : SearcherState) (reverse : Bool) : List Deal × SearcherState :=
  (sortDeals
    (fun a b =>
      if reverse then decide (b.discount_percentage ≤ a.discount_percentage)
      else decide (a.discount_percentage ≤ b.discount_percentage)) s.deals, s)

/-- `DealSearcher.sort_deals_by_price`. -/
def sort_deals_by_price (s : SearcherState) (reverse : Bool) : List Deal × SearcherState :=
  (sortDeals
    (fun a b =>
      if reverse then decide (b.sale_price ≤ a.sale_price)
      else decide (a.sale_price ≤ b.sale_price)) s.deals, s)

/-- One invocation of a filter/sort helper. -/
inductive HelperCall where
  | byCategory (c : ProductCategory)
  | byMinDiscount (q : ℚ)
  | byMaxPrice (q : ℚ)
  | sortDiscount (reverse : Bool)
  | sortPrice (reverse : Bool)

/-- Dispatch one helper call on the searcher state. -/
def runHelper (s : SearcherState) : HelperCall → List Deal × SearcherState
  | .byCategory c => filter_deals_by_category s c
  | .byMinDiscount q => filter_deals_by_min_discount s q
  | .byMaxPrice q => filter_deals_by_max_price s q
  | .sortDiscount r => sort_deals_by_discount s r
  | .sortPrice r => sort_deals_by_price s r

/-- Run a sequence of helper calls, threading the searcher state. -/
def runHelpers (calls : List HelperCall) (s : SearcherState) : SearcherState :=
  calls.foldl (fun st c => (runHelper st c).2) s

theorem merge_deals_append (l1 l2 deals : List Deal) (seen : List (String × String)) :
    merge_deals (l1 ++ l2) deals seen =
      merge_deals l2 (merge_deals l1 deals seen).1 (merge_deals l1 deals seen).2 := by
  induction l1 generalizing deals seen with
  | nil => simp [merge_deals]
  | cons d rest ih =>
    by_cases h : dedupKey d ∈ seen <;> simp [merge_deals, h, ih]

theorem concLoop_map_ok (results : List (List Deal)) (deals : List Deal)
    (seen : List (String × String)) :
    concLoop (results.map Except.ok) deals seen = merge_deals results.flatten deals seen := by
  induction results generalizing deals seen with
  | nil => simp [concLoop, merge_deals]
  | cons r rs ih => simp [concLoop, merge_deals_append, ih]

theorem merge_deals_fst (l deals : List Deal) (seen : List (String × String)) :
    (merge_deals l deals seen).1 =
      deals ++ (specFirstWins l).filter (fun x => decide (dedupKey x ∉ seen)) := by
  induction l generalizing deals seen with
  | nil => simp [merge_deals, specFirstWins]
  | cons d rest ih =>
    by_cases h : dedupKey d ∈ seen
    · rw [show merge_deals (d :: rest) deals seen = merge_deals rest deals seen from by
        simp [merge_deals, h]]
      rw [ih]
      congr 1
      rw [show specFirstWins (d :: rest) =
          d :: (specFirstWins rest).filter (fun x => decide (dedupKey x ≠ dedupKey d)) from rfl]
      rw [List.filter_cons]
      simp only [h, not_true_eq_false, decide_False, Bool.false_eq_true, if_false]
      rw [List.filter_filter]
      refine (List.filter_congr ?_).symm
      intro x _
      by_cases hs : dedupKey x ∈ seen
      · simp [hs]
      · have hne : dedupKey x ≠ dedupKey d := fun he => hs (he ▸ h)
        simp [hs, hne]
    · rw [show merge_deals (d :: rest) deals seen =
          merge_deals rest (deals ++ [d]) (dedupKey d :: seen) from by
        simp [merge_deals, h]]
      rw [ih]
      rw [show specFirstWins (d :: rest) =
          d :: (specFirstWins rest).filter (fun x => decide (dedupKey x ≠ dedupKey d)) from rfl]
      rw [List.filter_cons]
      simp only [h, not_false_eq_true, decide_True, if_true]
      rw [List.filter_filter, List.append_assoc, List.singleton_append]
      congr 2
      refine List.filter_congr ?_
      intro x _
      by_cases hs : dedupKey x ∈ seen <;> by_cases hd : dedupKey x = dedupKey d <;>
        simp [hs, hd, List.mem_cons]

theorem mergeAll_eq_specFirstWins (results : List (List Deal)) :
    mergeAll results = specFirstWins results.flatten := by
  unfold mergeAll fetchConcurrent
  rw [concLoop_map_ok, merge_deals_fst]
  simp

theorem mem_of_mem_specFirstWins {d : Deal} :
    ∀ {l : List Deal}, d ∈ specFirstWins l → d ∈ l
  | [], h => by simp [specFirstWins] at h
  | a :: rest, h => by
    rw [show specFirstWins (a :: rest) =
        a :: (specFirstWins rest).filter (fun x => decide (dedupKey x ≠ dedupKey a)) from rfl] at h
    rcases List.mem_cons.mp h with he | hm
    · exact he ▸ List.mem_cons_self a rest
    · exact List.mem_cons_of_mem a (mem_of_mem_specFirstWins (List.mem_of_mem_filter hm))

theorem specFirstWins_keys_cover {d : Deal} :
    ∀ {l : List Deal}, d ∈ l → dedupKey d ∈ (specFirstWins l).map dedupKey
  | [], h => by simp at h
  | a :: rest, h => by
    rw [show specFirstWins (a :: rest) =
        a :: (specFirstWins rest).filter (fun x => decide (dedupKey x ≠ dedupKey a)) from rfl]
    rcases List.mem_cons.mp h with he | hm
    · exact he ▸ List.mem_cons_self _ _
    · by_cases hk : dedupKey d = dedupKey a
      · rw [List.map_cons, hk]
        exact List.mem_cons_self _ _
      · have hin := specFirstWins_keys_cover hm
        rcases List.mem_map.mp hin with ⟨x, hx, hxk⟩
        refine List.mem_cons_of_mem _ (List.mem_map.mpr ⟨x, ?_, hxk⟩)
        exact List.mem_filter.mpr ⟨hx, by simp [hxk, hk]⟩

theorem specFirstWins_keys_nodup : ∀ l : List Deal, ((specFirstWins l).map dedupKey).Nodup
  | [] => by simp [specFirstWins]
  | a :: rest => by
    rw [show specFirstWins (a :: rest) =
        a :: (specFirstWins rest).filter (fun x => decide (dedupKey x ≠ dedupKey a)) from rfl]
    rw [List.map_cons]
    refine List.nodup_cons.mpr ⟨?_, ?_⟩
    · intro hmem
      rcases List.mem_map.mp hmem with ⟨x, hx, hxk⟩
      have := (List.mem_filter.mp hx).2
      simp only [decide_eq_true_eq] at this
      exact this hxk
    · exact List.Nodup.sublist
        (List.Sublist.map dedupKey (List.filter_sublist (specFirstWins rest)))
        (specFirstWins_keys_nodup rest)

theorem specFirstWins_keys_mem_iff (x : String × String) (l : List Deal) :
    x ∈ (specFirstWins l).map dedupKey ↔ x ∈ l.map dedupKey := by
  constructor
  · intro h
    rcases List.mem_map.mp h with ⟨d, hd, hk⟩
    exact List.mem_map.mpr ⟨d, mem_of_mem_specFirstWins hd, hk⟩
  · intro h
    rcases List.mem_map.mp h with ⟨d, hd, hk⟩
    exact hk ▸ specFirstWins_keys_cover hd

/-- C5: within one invocation the aggregated output keeps exactly the
first deal per dedup key `(retailer, lowercased product name)`: merging
the per-task result lists equals the spec's first-write-wins pass over
their concatenation, output dedup keys are pairwise distinct, every
incoming deal's key is represented, and every output deal is an
incoming deal. -/
theorem C5_merge_first_write_wins (results : List (List Deal)) :
    mergeAll results = specFirstWins results.flatten ∧
    ((mergeAll results).map dedupKey).Nodup ∧
    (∀ d ∈ results.flatten, dedupKey d ∈ (mergeAll results).map dedupKey) ∧
    (∀ d ∈ mergeAll results, d ∈ results.flatten) := by
  refine ⟨mergeAll_eq_specFirstWins results, ?_, ?_, ?_⟩
  · rw [mergeAll_eq_specFirstWins]
    exact specFirstWins_keys_nodup _
  · intro d hd
    rw [mergeAll_eq_specFirstWins]
    exact specFirstWins_keys_cover hd
  · intro d hd
    rw [mergeAll_eq_specFirstWins] at hd
    exact mem_of_mem_specFirstWins hd

/-- A concrete deal used in closed statements. -/
def dealA : Deal := mkDeal "Ryzen 7" ProductCategory.CPU 300 200 "Best Buy" "" ""

/-- A deal with the same dedup key as `dealA` but a different sale price. -/
def dealA2 : Deal := mkDeal "Ryzen 7" ProductCategory.CPU 300 250 "Best Buy" "" ""

/-- A deal with a dedup key distinct from `dealA`. -/
def dealB : Deal := mkDeal "RTX 4070" ProductCategory.GPU 700 600 "Newegg" "" ""

theorem mergeAll_pair_left : mergeAll [[dealA], [dealA2]] = [dealA] := rfl

theorem mergeAll_pair_right : mergeAll [[dealA2], [dealA]] = [dealA2] := rfl

theorem dealA_ne_dealA2 : dealA ≠ dealA2 := by
  intro h
  have hs := congrArg Deal.sale_price h
  simp only [dealA, dealA2, mkDeal] at hs
  norm_num at hs

/-- C9 counterexample: two task results holding distinct deals with the
same dedup key. Under one arrival order the merged output is `[dealA]`,
under the permuted order it is `[dealA2]`, and those are different sets
of deals, refuting "merging produces the same final set of deals". -/
theorem C9_counterexample :
    ([[dealA], [dealA2]] : List (List Deal)).Perm [[dealA2], [dealA]] ∧
    dealA ∈ mergeAll [[dealA], [dealA2]] ∧
    dealA ∉ mergeAll [[dealA2], [dealA]] := by
  refine ⟨List.Perm.swap _ _ _, ?_, ?_⟩
  · rw [mergeAll_pair_left]
    exact List.mem_singleton.mpr rfl
  · rw [mergeAll_pair_right]
    intro h
    exact dealA_ne_dealA2 (List.mem_singleton.mp h)

theorem mergeAll_keys_toFinset (ts : List (List Deal)) :
    ((mergeAll ts).map dedupKey).toFinset = (ts.flatten.map dedupKey).toFinset := by
  ext x
  simp only [List.mem_toFinset]
  rw [mergeAll_eq_specFirstWins, specFirstWins_keys_mem_iff]

theorem mergeAll_length_eq_card (ts : List (List Deal)) :
    (mergeAll ts).length = ((mergeAll ts).map dedupKey).toFinset.card := by
  rw [mergeAll_eq_specFirstWins, List.toFinset_card_of_nodup (specFirstWins_keys_nodup _)]
  rw [List.length_map]

theorem mergeAll_mem_flatten_of_inj (ts : List (List Deal))
    (hinj : ∀ a ∈ ts.flatten, ∀ b ∈ ts.flatten, dedupKey a = dedupKey b → a = b)
    (d : Deal) : d ∈ mergeAll ts ↔ d ∈ ts.flatten := by
  rw [mergeAll_eq_specFirstWins]
  constructor
  · exact mem_of_mem_specFirstWins
  · intro hd
    have hk := specFirstWins_keys_cover (l := ts.flatten) hd
    rcases List.mem_map.mp hk with ⟨x, hx, hxk⟩
    have hxf := mem_of_mem_specFirstWins hx
    have := hinj x hxf d hd hxk
    exact this ▸ hx

/-- C9 amended: across any two arrival orders of the same task results,
the merge keeps the same set of dedup keys and the same number of
deals; the literal set of deal records also agrees whenever no two
distinct incoming deals share a dedup key (otherwise first-write-wins
keeps an order-dependent representative, as the counterexample shows). -/
theorem C9_merge_order_insensitive (rs rs' : List (List Deal)) (h : rs.Perm rs') :
    ((mergeAll rs).map dedupKey).toFinset = ((mergeAll rs').map dedupKey).toFinset ∧
    (mergeAll rs).length = (mergeAll rs').length ∧
    ((∀ a ∈ rs.flatten, ∀ b ∈ rs.flatten, dedupKey a = dedupKey b → a = b) →
      ∀ d : Deal, d ∈ mergeAll rs ↔ d ∈ mergeAll rs') := by
  have hperm : rs.flatten.Perm rs'.flatten := h.flatten
  have hsets : ((mergeAll rs).map dedupKey).toFinset = ((mergeAll rs').map dedupKey).toFinset := by
    rw [mergeAll_keys_toFinset, mergeAll_keys_toFinset]
    ext x
    simp only [List.mem_toFinset]
    exact (hperm.map dedupKey).mem_iff
  refine ⟨hsets, ?_, ?_⟩
  · rw [mergeAll_length_eq_card, mergeAll_length_eq_card, hsets]
  · intro hinj d
    have hinj' : ∀ a ∈ rs'.flatten, ∀ b ∈ rs'.flatten, dedupKey a = dedupKey b → a = b := by
      intro a ha b hb
      exact hinj a (hperm.mem_iff.mpr ha) b (hperm.mem_iff.mpr hb)
    rw [mergeAll_mem_flatten_of_inj rs hinj d, mergeAll_mem_flatten_of_inj rs' hinj' d]
    exact hperm.mem_iff

theorem dealA_key_ne_dealB : dedupKey dealA ≠ dedupKey dealB := by
  intro h
  have hr := congrArg Prod.fst h
  simp only [dedupKey, dealA, dealB, mkDeal] at hr
  exact absurd hr (by decide)

/-- Witness for C9's amended theorem at a concrete permutation of two
key-distinct task results. -/
theorem C9_merge_order_insensitive_witness :
    (mergeAll [[dealA], [dealB]]).length = (mergeAll [[dealB], [dealA]]).length ∧
    (dealA ∈ mergeAll [[dealA], [dealB]] ↔ dealA ∈ mergeAll [[dealB], [dealA]]) := by
  have h := C9_merge_order_insensitive [[dealA], [dealB]] [[dealB], [dealA]]
    (List.Perm.swap _ _ _)
  refine ⟨h.2.1, h.2.2 ?_ dealA⟩
  intro a ha b hb hk
  have ha' : a = dealA ∨ a = dealB := by simpa using ha
  have hb' : b = dealA ∨ b = dealB := by simpa using hb
  rcases ha' with ha' | ha' <;> rcases hb' with hb' | hb' <;> subst ha' <;> subst hb'
  · rfl
  · exact absurd hk dealA_key_ne_dealB
  · exact absurd hk.symm dealA_key_ne_dealB
  · rfl

theorem cacheLookup_set_self (now : ℚ) (key : CacheKey) (deals : List Deal) (c : CacheMap) :
    cacheLookup key (cache_set now key deals c) = some (now, deals) := by
  simp [cacheLookup, cache_set]

theorem cacheLookup_erase_self (key : CacheKey) (c : CacheMap) :
    cacheLookup key (cacheErase key c) = none := by
  induction c with
  | nil => rfl
  | cons p rest ih =>
    by_cases h : p.1 = key
    · simpa [cacheErase, h] using ih
    · simpa [cacheErase, cacheLookup, h] using ih

theorem cacheLookup_erase_ne {k' key : CacheKey} (h : k' ≠ key) (c : CacheMap) :
    cacheLookup k' (cacheErase key c) = cacheLookup k' c := by
  induction c with
  | nil => rfl
  | cons p rest ih =>
    have hk' : key ≠ k' := fun he => h he.symm
    by_cases hp : p.1 = key
    · simpa [cacheErase, cacheLookup, hp, hk'] using ih
    · by_cases hq : p.1 = k'
      · simp [cacheErase, cacheLookup, hp, hq, h]
      · simpa [cacheErase, cacheLookup, hp, hq] using ih

theorem cacheLookup_set_ne {k' key : CacheKey} (h : k' ≠ key)
    (now : ℚ) (deals : List Deal) (c : CacheMap) :
    cacheLookup k' (cache_set now key deals c) = cacheLookup k' c := by
  have hk : key ≠ k' := fun he => h he.symm
  simp only [cache_set, cacheLookup, hk, if_false, if_neg hk]
  exact cacheLookup_erase_ne h c

/-- C4: a get immediately after `set(key, deals)` (with the configured
nonnegative TTL) returns exactly the stored deals; a get once more than
the TTL has elapsed since the set returns absent and removes the entry;
a get on an absent key returns absent and leaves the cache unchanged;
and a set touches no other key (expiry is only ever checked on access). -/
theorem C4_cache_ttl_roundtrip (key : CacheKey) (deals : List Deal) (c : CacheMap)
    (t now ttl : ℚ) (httl : 0 ≤ ttl) :
    (cache_get t ttl key (cache_set t key deals c)).1 = some deals ∧
    (ttl < now - t →
      (cache_get now ttl key (cache_set t key deals c)).1 = none ∧
      cacheLookup key (cache_get now ttl key (cache_set t key deals c)).2 = none) ∧
    (cacheLookup key c = none →
      (cache_get now ttl key c).1 = none ∧ (cache_get now ttl key c).2 = c) ∧
    (∀ k', k' ≠ key → cacheLookup k' (cache_set t key deals c) = cacheLookup k' c) := by
  refine ⟨?_, ?_, ?_, ?_⟩
  · simp [cache_get, cacheLookup_set_self, sub_self, not_lt.mpr httl]
  · intro hexp
    constructor
    · simp [cache_get, cacheLookup_set_self, hexp]
    · simp [cache_get, cacheLookup_set_self, hexp, cacheLookup_erase_self]
  · intro habs
    constructor
    · simp [cache_get, habs]
    · simp [cache_get, habs]
  · intro k' hk'
    exact cacheLookup_set_ne hk' t deals c

/-- Witness for C4 at a concrete key, entry, and clock values. -/
theorem C4_cache_ttl_roundtrip_witness :
    (cache_get 0 300 (cache_key "Best Buy" " i7 CPU " ProductCategory.CPU)
      (cache_set 0 (cache_key "Best Buy" " i7 CPU " ProductCategory.CPU) [dealA] [])).1 =
      some [dealA] ∧
    (cache_get 301 300 (cache_key "Best Buy" " i7 CPU " ProductCategory.CPU)
      (cache_set 0 (cache_key "Best Buy" " i7 CPU " ProductCategory.CPU) [dealA] [])).1 =
      none := by
  have h := C4_cache_ttl_roundtrip (cache_key "Best Buy" " i7 CPU " ProductCategory.CPU)
    [dealA] [] 0 301 300 (by norm_num)
  exact ⟨h.1, (h.2.1 (by norm_num)).1⟩

theorem scrapeLoop_length_le {α : Type} (extract : α → Option Deal) (limit : ℕ) :
    ∀ (items : List α) (deals : List Deal),
      (scrapeLoop extract limit items deals).length ≤ max limit (deals.length + 1)
  | [], deals => by
    simp only [scrapeLoop]
    omega
  | item :: rest, deals => by
    cases hx : extract item with
    | none =>
      simp only [scrapeLoop, hx]
      exact scrapeLoop_length_le extract limit rest deals
    | some d =>
      simp only [scrapeLoop, hx]
      by_cases hl : limit ≤ (deals ++ [d]).length
      · rw [if_pos hl]
        simp only [List.length_append, List.length_singleton] at *
        omega
      · rw [if_neg hl]
        have := scrapeLoop_length_le extract limit rest (deals ++ [d])
        simp only [List.length_append, List.length_singleton] at *
        omega

theorem scrapeLoop_append_stops {α : Type} (extract : α → Option Deal) (limit : ℕ) :
    ∀ (items extra : List α) (deals : List Deal),
      deals.length < limit →
      (scrapeLoop extract limit items deals).length = limit →
      scrapeLoop extract limit (items ++ extra) deals = scrapeLoop extract limit items deals
  | [], _, deals, hlt, hg => by
    simp only [scrapeLoop] at hg
    exact absurd hg (Nat.ne_of_lt hlt)
  | item :: rest, extra, deals, hlt, hg => by
    rw [List.cons_append]
    cases hx : extract item with
    | none =>
      simp only [scrapeLoop, hx] at hg ⊢
      exact scrapeLoop_append_stops extract limit rest extra deals hlt hg
    | some d =>
      simp only [scrapeLoop, hx] at hg ⊢
      by_cases hl : limit ≤ (deals ++ [d]).length
      · simp only [if_pos hl] at hg ⊢
      · simp only [if_neg hl] at hg ⊢
        refine scrapeLoop_append_stops extract limit rest extra (deals ++ [d]) ?_ hg
        simp only [List.length_append, List.length_singleton] at hl ⊢
        omega

theorem scrapeLoop_mem {α : Type} (extract : α → Option Deal) (limit : ℕ) :
    ∀ (items : List α) (deals : List Deal) (d : Deal),
      d ∈ scrapeLoop extract limit items deals →
      d ∈ deals ∨ ∃ i ∈ items, extract i = some d
  | [], deals, d, h => Or.inl (by simpa [scrapeLoop] using h)
  | item :: rest, deals, d, h => by
    cases hx : extract item with
    | none =>
      simp only [scrapeLoop, hx] at h
      rcases scrapeLoop_mem extract limit rest deals d h with hd | ⟨i, hi, he⟩
      · exact Or.inl hd
      · exact Or.inr ⟨i, List.mem_cons_of_mem _ hi, he⟩
    | some d0 =>
      simp only [scrapeLoop, hx] at h
      by_cases hl : limit ≤ (deals ++ [d0]).length
      · rw [if_pos hl] at h
        rcases List.mem_append.mp h with hd | hd
        · exact Or.inl hd
        · refine Or.inr ⟨item, List.mem_cons_self _ _, ?_⟩
          rw [hx]
          exact congrArg some (List.mem_singleton.mp hd).symm
      · rw [if_neg hl] at h
        rcases scrapeLoop_mem extract limit rest (deals ++ [d0]) d h with hd | ⟨i, hi, he⟩
        · rcases List.mem_append.mp hd with h1 | h1
          · exact Or.inl h1
          · refine Or.inr ⟨item, List.mem_cons_self _ _, ?_⟩
            rw [hx]
            exact congrArg some (List.mem_singleton.mp h1).symm
        · exact Or.inr ⟨i, List.mem_cons_of_mem _ hi, he⟩

/-- A Best Buy item block whose title and price are both present and
whose price parses. -/
def bbItemGood : BBItem :=
  { title := some ("Arc A770", "")
    priceText := some "10.00"
    prevPriceText := none
    descText := none }

/-- C6 counterexample: with `limit = 0` the length check runs only
after the first append, so one valid block yields one deal, refuting
"at most `limit` deals" as universally stated over every limit. -/
theorem C6_counterexample :
    ¬ ((scrape_bestbuy [bbItemGood] ProductCategory.GPU 0).length ≤ 0) := by
  rw [show (scrape_bestbuy [bbItemGood] ProductCategory.GPU 0).length = 1 from rfl]
  decide

/-- C6 amended: each extractor collects at most `max limit 1` deals, so
at most `limit` whenever `limit ≥ 1` (a non-positive limit still yields
one deal, per the counterexample); and collection genuinely stops as
soon as `limit` deals are gathered: once the output reaches `limit`,
further item blocks cannot change it. -/
theorem C6_scraper_limit (bitems : List BBItem) (nitems : List NEItem)
    (cat : ProductCategory) (limit : ℕ) :
    (scrape_bestbuy bitems cat limit).length ≤ max limit 1 ∧
    (scrape_newegg nitems cat limit).length ≤ max limit 1 ∧
    (1 ≤ limit → (scrape_bestbuy bitems cat limit).length ≤ limit) ∧
    (1 ≤ limit → (scrape_newegg nitems cat limit).length ≤ limit) ∧
    (1 ≤ limit → (scrape_bestbuy bitems cat limit).length = limit →
      ∀ extra, scrape_bestbuy (bitems ++ extra) cat limit = scrape_bestbuy bitems cat limit) ∧
    (1 ≤ limit → (scrape_newegg nitems cat limit).length = limit →
      ∀ extra, scrape_newegg (nitems ++ extra) cat limit = scrape_newegg nitems cat limit) := by
  have hbb := scrapeLoop_length_le (fun i => bbExtractItem i cat) limit bitems []
  have hne := scrapeLoop_length_le (fun i => neExtractItem i cat) limit nitems []
  simp only [List.length_nil] at hbb hne
  refine ⟨hbb, hne, ?_, ?_, ?_, ?_⟩
  · intro h1
    exact le_trans hbb (by omega)
  · intro h1
    exact le_trans hne (by omega)
  · intro h1 hfull extra
    exact scrapeLoop_append_stops (fun i => bbExtractItem i cat) limit bitems extra [] h1 hfull
  · intro h1 hfull extra
    exact scrapeLoop_append_stops (fun i => neExtractItem i cat) limit nitems extra [] h1 hfull

/-- Witness for C6's amended theorem at `limit = 1`. -/
theorem C6_scraper_limit_witness :
    (scrape_bestbuy [bbItemGood] ProductCategory.GPU 1).length ≤ 1 ∧
    scrape_bestbuy ([bbItemGood] ++ [bbItemGood]) ProductCategory.GPU 1 =
      scrape_bestbuy [bbItemGood] ProductCategory.GPU 1 := by
  have h := C6_scraper_limit [bbItemGood] [] ProductCategory.GPU 1
  exact ⟨h.2.2.1 (by decide), h.2.2.2.2.1 (by decide) rfl [bbItemGood]⟩

theorem parseDecimalChars_nonneg (l : List Char) : 0 ≤ parseDecimalChars l := by
  unfold parseDecimalChars
  rw [Rat.mkRat_eq_div]
  positivity

theorem parse_price_nonneg {text : String} {q : ℚ} (h : parse_price text = some q) :
    0 ≤ q := by
  unfold parse_price at h
  by_cases ht : text = ""
  · rw [if_pos ht] at h
    cases h
  · rw [if_neg ht] at h
    cases hs : searchNumber text.data with
    | none =>
      rw [hs] at h
      cases h
    | some m =>
      rw [hs] at h
      simp only [Option.some.injEq] at h
      exact h ▸ parseDecimalChars_nonneg _

theorem bbExtractItem_price_rule (i : BBItem) (cat : ProductCategory) (d : Deal)
    (h : bbExtractItem i cat = some d) :
    d.sale_price ≤ d.original_price ∧
    (∀ s p, i.prevPriceText = some s → parse_price s = some p → d.sale_price < p →
      d.original_price = p) ∧
    ((∀ s p, i.prevPriceText = some s → parse_price s = some p → p ≤ d.sale_price) →
      d.original_price = d.sale_price) := by
  unfold bbExtractItem at h
  cases ht : i.title with
  | none => rw [ht] at h; cases h
  | some t =>
    cases hp : i.priceText with
    | none => rw [ht, hp] at h; cases h
    | some ptext =>
      rw [ht, hp] at h
      simp only at h
      cases hpp : parse_price ptext with
      | none => rw [hpp] at h; cases h
      | some sale =>
        rw [hpp] at h
        simp only [Option.some.injEq] at h
        have hs0 : 0 ≤ sale := parse_price_nonneg hpp
        cases hprev : i.prevPriceText with
        | none =>
          rw [hprev] at h
          simp only at h
          subst h
          refine ⟨le_refl _, ?_, fun _ => rfl⟩
          intro s p hq
          cases hq
        | some s =>
          rw [hprev] at h
          simp only at h
          cases hps : parse_price s with
          | none =>
            rw [hps] at h
            simp only at h
            subst h
            refine ⟨le_refl _, ?_, fun _ => rfl⟩
            intro s' p hq hpar
            cases hq
            rw [hps] at hpar
            cases hpar
          | some p =>
            rw [hps] at h
            simp only at h
            by_cases hc : p ≠ 0 ∧ sale < p
            · rw [if_pos hc] at h
              subst h
              refine ⟨le_of_lt hc.2, ?_, ?_⟩
              · intro s' p' hq hpar _
                cases hq
                rw [hps] at hpar
                cases hpar
                rfl
              · intro hall
                have := hall s p rfl hps
                exact absurd hc.2 (not_lt.mpr this)
            · rw [if_neg hc] at h
              subst h
              refine ⟨le_refl _, ?_, fun _ => rfl⟩
              intro s' p' hq hpar hlt
              cases hq
              rw [hps] at hpar
              cases hpar
              have hp0 : p ≠ 0 := ne_of_gt (lt_of_le_of_lt hs0 hlt)
              exact absurd ⟨hp0, hlt⟩ hc

theorem neExtractItem_price_rule (j : NEItem) (cat : ProductCategory) (d : Deal)
    (h : neExtractItem j cat = some d) :
    d.sale_price ≤ d.original_price ∧
    (∀ s p, j.wasText = some s → parse_price s = some p → d.sale_price < p →
      d.original_price = p) ∧
    ((∀ s p, j.wasText = some s → parse_price s = some p → p ≤ d.sale_price) →
      d.original_price = d.sale_price) := by
  unfold neExtractItem at h
  cases ht : j.title with
  | none => rw [ht] at h; cases h
  | some t =>
    cases hp : j.priceText with
    | none => rw [ht, hp] at h; cases h
    | some ptext =>
      rw [ht, hp] at h
      simp only at h
      by_cases hcart : pyIn "see price in cart" (pyLower ptext) = true
      · rw [if_pos hcart] at h; cases h
      · rw [if_neg hcart] at h
        cases hpp : parse_price ptext with
        | none => rw [hpp] at h; cases h
        | some sale =>
          rw [hpp] at h
          simp only [Option.some.injEq] at h
          have hs0 : 0 ≤ sale := parse_price_nonneg hpp
          cases hwas : j.wasText with
          | none =>
            rw [hwas] at h
            simp only at h
            subst h
            refine ⟨le_refl _, ?_, fun _ => rfl⟩
            intro s p hq
            cases hq
          | some s =>
            rw [hwas] at h
            simp only at h
            cases hps : parse_price s with
            | none =>
              rw [hps] at h
              simp only at h
              subst h
              refine ⟨le_refl _, ?_, fun _ => rfl⟩
              intro s' p hq hpar
              cases hq
              rw [hps] at hpar
              cases hpar
            | some p =>
              rw [hps] at h
              simp only at h
              by_cases hc : p ≠ 0 ∧ sale < p
              · rw [if_pos hc] at h
                subst h
                refine ⟨le_of_lt hc.2, ?_, ?_⟩
                · intro s' p' hq hpar _
                  cases hq
                  rw [hps] at hpar
                  cases hpar
                  rfl
                · intro hall
                  have := hall s p rfl hps
                  exact absurd hc.2 (not_lt.mpr this)
              · rw [if_neg hc] at h
                subst h
                refine ⟨le_refl _, ?_, fun _ => rfl⟩
                intro s' p' hq hpar hlt
                cases hq
                rw [hps] at hpar
                cases hpar
                have hp0 : p ≠ 0 := ne_of_gt (lt_of_le_of_lt hs0 hlt)
                exact absurd ⟨hp0, hlt⟩ hc

/-- C8: in both extractors the "previous/was" price becomes
`original_price` exactly when it is present, parses, and is strictly
greater than the current price; in every other case `original_price`
equals `sale_price`; hence every deal either extractor produces
satisfies `original_price ≥ sale_price`. -/
theorem C8_previous_price_rule (i : BBItem) (j : NEItem) (cat : ProductCategory)
    (limit : ℕ) (bitems : List BBItem) (nitems : List NEItem) :
    (∀ d : Deal, bbExtractItem i cat = some d →
      d.sale_price ≤ d.original_price ∧
      (∀ s p, i.prevPriceText = some s → parse_price s = some p → d.sale_price < p →
        d.original_price = p) ∧
      ((∀ s p, i.prevPriceText = some s → parse_price s = some p → p ≤ d.sale_price) →
        d.original_price = d.sale_price)) ∧
    (∀ d : Deal, neExtractItem j cat = some d →
      d.sale_price ≤ d.original_price ∧
      (∀ s p, j.wasText = some s → parse_price s = some p → d.sale_price < p →
        d.original_price = p) ∧
      ((∀ s p, j.wasText = some s → parse_price s = some p → p ≤ d.sale_price) →
        d.original_price = d.sale_price)) ∧
    (∀ d ∈ scrape_bestbuy bitems cat limit, d.sale_price ≤ d.original_price) ∧
    (∀ d ∈ scrape_newegg nitems cat limit, d.sale_price ≤ d.original_price) := by
  refine ⟨fun d h => bbExtractItem_price_rule i cat d h,
    fun d h => neExtractItem_price_rule j cat d h, ?_, ?_⟩
  · intro d hd
    rcases scrapeLoop_mem _ limit bitems [] d hd with hfalse | ⟨it, _, he⟩
    · cases hfalse
    · exact (bbExtractItem_price_rule it cat d he).1
  · intro d hd
    rcases scrapeLoop_mem _ limit nitems [] d hd with hfalse | ⟨it, _, he⟩
    · cases hfalse
    · exact (neExtractItem_price_rule it cat d he).1

/-- A Best Buy block carrying a strictly greater previous price. -/
def bbItemPrev : BBItem :=
  { title := some ("Item X", "/x")
    priceText := some "$10.00"
    prevPriceText := some "$20.00"
    descText := none }

/-- A Newegg block whose "was" price is not greater than the current
price. -/
def neItemPrev : NEItem :=
  { title := some ("Item Y", "https://y")
    priceText := some "$500"
    wasText := some "$400" }

/-- The deal `bbItemPrev` extracts. -/
def dealX : Deal :=
  mkDeal "Item X" ProductCategory.CPU 20 10 "Best Buy" "https://www.bestbuy.com/x" ""

/-- The deal `neItemPrev` extracts. -/
def dealY : Deal :=
  mkDeal "Item Y" ProductCategory.CPU 500 500 "Newegg" "https://y" ""

/-- Witness for C8 at concrete blocks for both extractors. -/
theorem C8_previous_price_rule_witness :
    dealX.sale_price ≤ dealX.original_price ∧ dealX.original_price = 20 ∧
    dealY.sale_price ≤ dealY.original_price ∧ dealY.original_price = dealY.sale_price := by
  have h := C8_previous_price_rule bbItemPrev neItemPrev ProductCategory.CPU 5 [] []
  have hbb := h.1 dealX rfl
  have hne := h.2.1 dealY rfl
  refine ⟨hbb.1, hbb.2.1 "$20.00" 20 rfl (by decide) ?_, hne.1, hne.2.2 ?_⟩
  · rw [show dealX.sale_price = 10 from rfl]
    decide
  · intro s p hq hpar
    cases hq
    rw [show parse_price "$400" = some 400 from by decide] at hpar
    cases hpar
    rw [show dealY.sale_price = 500 from rfl]
    decide

theorem searchNumber_eq_none_iff (l : List Char) :
    searchNumber l = none ↔ ∀ c ∈ l, c.isDigit = false := by
  induction l with
  | nil => simp [searchNumber]
  | cons c rest ih =>
    by_cases hd : c.isDigit
    · have hm : matchNumberAt (c :: rest) = some
          (((c :: rest).takeWhile Char.isDigit ++
            (takeCommaGroups ((c :: rest).dropWhile Char.isDigit)).1) ++
            takeFraction (takeCommaGroups ((c :: rest).dropWhile Char.isDigit)).2) := by
        simp [matchNumberAt, List.takeWhile_cons, hd]
      simp [searchNumber, hm, List.forall_mem_cons, hd]
    · have hm : matchNumberAt (c :: rest) = none := by
        simp [matchNumberAt, List.takeWhile_cons, hd]
      simp only [searchNumber, hm, List.forall_mem_cons, ih]
      have hc : c.isDigit = false := by
        cases h : c.isDigit
        · rfl
        · exact absurd h hd
      simp [hc]

/-- C3: `_parse_price` extracts the leftmost match of the price pattern
(digits, optional comma thousands groups, optional two-digit fraction),
strips the commas and reads it as a number; it is total (never
throws), returns `none` exactly on inputs with no digit (in particular
the empty string), and meets the spec's four examples. -/
theorem C3_parse_price_contract (text : String) :
    parse_price "$1,299.99" = some (129999 / 100) ∧
    parse_price "" = none ∧
    parse_price "Call for price" = none ∧
    parse_price "499" = some 499 ∧
    (parse_price text = none ↔ ∀ c ∈ text.data, c.isDigit = false) := by
  refine ⟨?_, by decide, by decide, by decide, ?_⟩
  · rw [show parse_price "$1,299.99" = some (mkRat 129999 100) from by decide]
    norm_num [mkRat, Rat.normalize]
  · by_cases ht : text = ""
    · subst ht
      decide
    · have hun : parse_price text =
          (match searchNumber text.data with
            | none => none
            | some m => some (parseDecimalChars (m.filter (fun c => c ≠ ',')))) := by
        unfold parse_price
        rw [if_neg ht]
      rw [hun]
      cases hs : searchNumber text.data with
      | none => simp [← searchNumber_eq_none_iff, hs]
      | some m =>
        simp only
        constructor
        · intro h
          cases h
        · intro hall
          have hnone := (searchNumber_eq_none_iff text.data).mpr hall
          rw [hs] at hnone
          cases hnone

theorem string_data_append (s t : String) : (s ++ t).data = s.data ++ t.data := by
  cases s
  cases t
  rfl

theorem dropWhile_all_eq_nil {p : Char → Bool} :
    ∀ l : List Char, (∀ x ∈ l.dropWhile p, p x = true) → l.dropWhile p = []
  | [], _ => rfl
  | a :: l, h => by
    rw [List.dropWhile_cons] at *
    by_cases ha : p a
    · rw [if_pos ha] at *
      exact dropWhile_all_eq_nil l h
    · rw [if_neg ha] at h
      have := h a (List.mem_cons_self _ _)
      exact absurd this ha

theorem all_ws_of_dropWhile_all_ws :
    ∀ l : List Char, (∀ x ∈ l.dropWhile Char.isWhitespace, x.isWhitespace = true) →
      ∀ x ∈ l, x.isWhitespace = true
  | [], _ => by simp
  | a :: l, h => by
    rw [List.dropWhile_cons] at h
    by_cases ha : a.isWhitespace
    · rw [if_pos ha] at h
      intro x hx
      rcases List.mem_cons.mp hx with he | hm
      · exact he ▸ ha
      · exact all_ws_of_dropWhile_all_ws l h x hm
    · rw [if_neg ha] at h
      exact h

theorem pyStrip_eq_empty_iff (s : String) :
    pyStrip s = "" ↔ ∀ x ∈ s.data, x.isWhitespace = true := by
  constructor
  · intro h
    have hd : (pyStrip s).data = [] := congrArg String.data h
    rw [show (pyStrip s).data =
        ((s.data.dropWhile Char.isWhitespace).reverse.dropWhile Char.isWhitespace).reverse
      from rfl] at hd
    rw [List.reverse_eq_nil_iff, List.dropWhile_eq_nil_iff] at hd
    refine all_ws_of_dropWhile_all_ws s.data ?_
    intro x hx
    exact hd x (List.mem_reverse.mpr hx)
  · intro h
    refine String.ext ?_
    rw [show (pyStrip s).data =
        ((s.data.dropWhile Char.isWhitespace).reverse.dropWhile Char.isWhitespace).reverse
      from rfl]
    rw [List.dropWhile_eq_nil_iff.mpr h]
    rfl

theorem pyStrip_has_non_ws {s : String} (h : pyStrip s ≠ "") :
    ∃ x ∈ (pyStrip s).data, x.isWhitespace = false := by
  by_contra hcon
  push_neg at hcon
  have hall : ∀ x ∈ (pyStrip s).data, x.isWhitespace = true := by
    intro x hx
    cases hb : x.isWhitespace
    · exact absurd hb (hcon x hx)
    · rfl
  apply h
  refine String.ext ?_
  have hd : (pyStrip s).data =
      ((s.data.dropWhile Char.isWhitespace).reverse.dropWhile Char.isWhitespace).reverse := rfl
  rw [hd] at hall ⊢
  have : ∀ x ∈ (s.data.dropWhile Char.isWhitespace).reverse.dropWhile Char.isWhitespace,
      x.isWhitespace = true := by
    intro x hx
    exact hall x (List.mem_reverse.mpr hx)
  rw [dropWhile_all_eq_nil _ this]
  rfl

/-- C7 counterexample: with the free term `" graphics card "` and
category GPU, the category phrase is a case-insensitive substring of
the term, yet the code returns the stripped term, not the term
verbatim. -/
theorem C7_counterexample :
    pyIn (pyLower (CATEGORY_SEARCH_TERMS ProductCategory.GPU))
      (pyLower (pyStrip " graphics card ")) = true ∧
    buildQuery ProductCategory.GPU (some " graphics card ") ≠ " graphics card " := by
  exact ⟨by decide, by decide⟩

/-- C7 amended: with no term (or a term that strips to empty) the query
is the category's default phrase; with a nonempty stripped term it is
the *stripped* term verbatim when the lowercased phrase occurs in the
lowercased stripped term, else the trimmed concatenation of the
stripped term and the phrase; in all cases the query is non-empty. -/
theorem C7_query_builder (category : ProductCategory) (term : String) :
    buildQuery category none = CATEGORY_SEARCH_TERMS category ∧
    (pyStrip term = "" → buildQuery category (some term) = CATEGORY_SEARCH_TERMS category) ∧
    (pyStrip term ≠ "" →
      pyIn (pyLower (CATEGORY_SEARCH_TERMS category)) (pyLower (pyStrip term)) = true →
      buildQuery category (some term) = pyStrip term) ∧
    (pyStrip term ≠ "" →
      pyIn (pyLower (CATEGORY_SEARCH_TERMS category)) (pyLower (pyStrip term)) = false →
      buildQuery category (some term) =
        pyStrip (pyStrip term ++ " " ++ CATEGORY_SEARCH_TERMS category)) ∧
    buildQuery category none ≠ "" ∧
    buildQuery category (some term) ≠ "" := by
  refine ⟨by simp [buildQuery], ?_, ?_, ?_, ?_, ?_⟩
  · intro h
    simp [buildQuery, h]
  · intro h1 h2
    simp [buildQuery, h1, h2]
  · intro h1 h2
    simp [buildQuery, h1, h2]
  · cases category <;> decide
  · by_cases h1 : pyStrip term = ""
    · rw [show buildQuery category (some term) = CATEGORY_SEARCH_TERMS category from by
        simp [buildQuery, h1]]
      cases category <;> decide
    · by_cases h2 : pyIn (pyLower (CATEGORY_SEARCH_TERMS category)) (pyLower (pyStrip term))
      · rw [show buildQuery category (some term) = pyStrip term from by
          simp [buildQuery, h1, h2]]
        exact h1
      · rw [show buildQuery category (some term) =
            pyStrip (pyStrip term ++ " " ++ CATEGORY_SEARCH_TERMS category) from by
          simp [buildQuery, h1, h2]]
        intro hcontra
        rw [pyStrip_eq_empty_iff] at hcontra
        obtain ⟨x, hx, hxws⟩ := pyStrip_has_non_ws h1
        have hmem : x ∈ (pyStrip term ++ " " ++ CATEGORY_SEARCH_TERMS category).data := by
          rw [string_data_append, string_data_append]
          exact List.mem_append_left _ (List.mem_append_left _ hx)
        have := hcontra x hmem
        rw [this] at hxws
        cases hxws

/-- Witness for C7 at a concrete category and terms exercising each
branch. -/
theorem C7_query_builder_witness :
    buildQuery ProductCategory.CPU none = "cpu processor" ∧
    buildQuery ProductCategory.GPU (some "nvidia graphics card sale") =
      "nvidia graphics card sale" ∧
    buildQuery ProductCategory.GPU (some " rtx 4070 ") = "rtx 4070 graphics card" ∧
    buildQuery ProductCategory.GPU (some " rtx 4070 ") ≠ "" := by
  have hcpu := C7_query_builder ProductCategory.CPU ""
  have hgpu1 := C7_query_builder ProductCategory.GPU "nvidia graphics card sale"
  have hgpu2 := C7_query_builder ProductCategory.GPU " rtx 4070 "
  refine ⟨hcpu.1, ?_, ?_, hgpu2.2.2.2.2.2⟩
  · rw [hgpu1.2.2.1 (by decide) (by decide)]
    decide
  · rw [hgpu2.2.2.2.1 (by decide) (by decide)]
    decide

theorem runHelper_state (s : SearcherState) (c : HelperCall) : (runHelper s c).2 = s := by
  cases c <;> rfl

/-- C10: every filter/sort helper returns a fresh list and leaves the
stored result set `self.deals` untouched, so running any sequence of
helper calls leaves the searcher state unchanged and later helper
results are unaffected. -/
theorem C10_helpers_preserve_state (calls : List HelperCall) (s : SearcherState) :
    runHelpers calls s = s ∧
    (∀ c : HelperCall, (runHelper s c).2 = s) ∧
    (∀ c : HelperCall, (runHelper (runHelpers calls s) c).1 = (runHelper s c).1) := by
  have hrun : runHelpers calls s = s := by
    induction calls with
    | nil => rfl
    | cons c cs ih =>
      show runHelpers cs (runHelper s c).2 = s
      rw [runHelper_state]
      exact ih
  exact ⟨hrun, fun c => runHelper_state s c, fun c => by rw [hrun]⟩

/-- C2: every constructed `Deal` stores
`round(((original - sale) / original) * 100, 2)` as its discount when
`original_price > 0` and `0` otherwise, and the stored value is always
an integer number of hundredths (two decimal places). -/
theorem C2_discount_invariant (product_name : String) (category : ProductCategory)
    (original_price sale_price : ℚ) (retailer url description : String) :
    (mkDeal product_name category original_price sale_price
        retailer url description).discount_percentage =
      (if 0 < original_price
        then pyRound2 ((original_price - sale_price) / original_price * 100)
        else 0) ∧
    ∃ m : ℤ,
      (mkDeal product_name category original_price sale_price
          retailer url description).discount_percentage = (m : ℚ) / 100 := by
  constructor
  · by_cases h : original_price ≤ 0
    · simp [mkDeal, calculate_discount, h, not_lt.mpr h]
    · simp [mkDeal, calculate_discount, h, lt_of_not_le h]
  · by_cases h : original_price ≤ 0
    · refine ⟨0, ?_⟩
      simp [mkDeal, calculate_discount, h]
    · refine ⟨pyRoundInt ((original_price - sale_price) / original_price * 100 * 100), ?_⟩
      simp [mkDeal, calculate_discount, h, pyRound2]

/-- C1: the concurrent path isolates task failures (an erroring future
is skipped and the siblings' deals are still merged), but the
sequential fallback path calls `_scrape_with_cache` with no exception
handler: evaluated at the task outcomes `[failure, success]`, the
sequential path aborts the whole call with the error and the sibling's
deal is lost, while the concurrent path still returns it. -/
theorem C1_sequential_path_not_isolated :
    fetchSequential [Except.error 0, Except.ok [dealA]] = Except.error 0 ∧
    fetchConcurrent [Except.error 0, Except.ok [dealA]] = [dealA] ∧
    fetchConcurrent [Except.ok [dealA], Except.error 0] = [dealA] ∧
    fetchSequential [Except.ok [dealA], Except.ok [dealB]] = Except.ok [dealA, dealB] :=
  ⟨rfl, rfl, rfl, rfl⟩

/-- Witness for C5 at two concrete task results containing a duplicate
dedup key across tasks. -/
theorem C5_merge_first_write_wins_witness :
    mergeAll [[dealA], [dealA2, dealB]] = specFirstWins [dealA, dealA2, dealB] ∧
    dedupKey dealA2 ∈ (mergeAll [[dealA], [dealA2, dealB]]).map dedupKey ∧
    dealB ∈ ([[dealA], [dealA2, dealB]] : List (List Deal)).flatten := by
  have h := C5_merge_first_write_wins [[dealA], [dealA2, dealB]]
  have hmem : dealA2 ∈ ([[dealA], [dealA2, dealB]] : List (List Deal)).flatten := by
    show dealA2 ∈ [dealA, dealA2, dealB]
    exact List.mem_cons_of_mem _ (List.mem_cons_self _ _)
  refine ⟨h.1, h.2.2.1 dealA2 hmem, ?_⟩
  · have hB : dealB ∈ mergeAll [[dealA], [dealA2, dealB]] := by
      rw [show mergeAll [[dealA], [dealA2, dealB]] = [dealA, dealB] from rfl]
      exact List.mem_cons_of_mem _ (List.mem_cons_self _ _)
    exact h.2.2.2 dealB hB

end DiscountApp
